import Mathlib

/-!
Shallow embedding of the k8deployer component/task orchestration engine
(files `Component.cpp` = src/unnamed/part_000, `DeploymentComponent.cpp` =
src/unnamed/part_001, `ServiceComponent.cpp` and `Cluster.cpp` = src/Cluster.cpp)
together with the theorems that settle the frozen claims about it.

Conventions of the embedding:
  - `std::map<string,string>` (the `conf_t` of the source) is modelled as an
    association list `Conf` with first-match lookup; `std::map` key uniqueness
    makes the two views agree on every map the program builds.
  - the process environment (`getenv`) is a parameter `env : String -> Option String`
    (`none` models an unset variable, `some ""` a set-but-empty one).
  - components and tasks are modelled by the data their member functions read:
    lists of task states, child states and dependsOn states, plus the mode.
  - the `dependsOn` graph is a global edge list `List (Nat × Nat)`; nodes are
    numbered components.
-/

namespace k8deployer

/-- Mode of a component, `Component::Mode` (CREATE or REMOVE). -/
inductive Mode
  | CREATE
  | REMOVE
deriving DecidableEq, Repr

/-- Component state, the `Component::State` enumeration (spec section 3:
`state ∈ {CREATING, RUNNING, DONE, FAILED}`); the declaration order gives the
integer values the source compares with `<` and `>`. -/
inductive CompState
  | CREATING
  | RUNNING
  | DONE
  | FAILED
deriving DecidableEq, Repr

/-- Numeric value of a `CompState`, as used by the `<`/`>` comparisons of the source. -/
def CompState.toNat : CompState → Nat
  | .CREATING => 0
  | .RUNNING => 1
  | .DONE => 2
  | .FAILED => 3

/-- Task state, the `Component::Task::TaskState` enumeration, in the order of the
`toString` name table of the source (part_000 lines 1069-1081). -/
inductive TaskState
  | PRE
  | BLOCKED
  | READY
  | EXECUTING
  | WAITING
  | DONE
  | ABORTED
  | FAILED
  | DEPENDENCY_FAILED
deriving DecidableEq, Repr

/-- Numeric value of a `TaskState`, as used by the `>=`/`>` comparisons of the source. -/
def TaskState.toNat : TaskState → Nat
  | .PRE => 0
  | .BLOCKED => 1
  | .READY => 2
  | .EXECUTING => 3
  | .WAITING => 4
  | .DONE => 5
  | .ABORTED => 6
  | .FAILED => 7
  | .DEPENDENCY_FAILED => 8

/-- Configuration map `conf_t = std::map<std::string,std::string>`, modelled as an
association list with first-match lookup. -/
abbrev Conf := List (String × String)

/-- Lookup in a `Conf`, the `find` of `std::map` (first matching key). -/
def confGet (m : Conf) (k : String) : Option String :=
  (m.find? (fun p => decide (p.1 = k))).map (fun p => p.2)

/-- Assignment `m[k] = v` of `std::map` : replace the value of an existing key,
otherwise insert the pair. -/
def confSet : Conf → String → String → Conf
  | [], k, v => [(k, v)]
  | (k0, v0) :: rest, k, v =>
      if k0 = k then (k, v) :: rest else (k0, v0) :: confSet rest k v

/-- The `try_emplace` of `std::map` : insert only when the key is absent. -/
def tryEmplace (m : Conf) (k v : String) : Conf :=
  if (confGet m k).isSome then m else m ++ [(k, v)]

/-- Data of one component node that `mergeArgs` reads: its local `args` and its
inherited `defaultArgs` (spec section 3). -/
structure ComponentData where
  args : Conf
  defaultArgs : Conf
deriving Repr

/-- Processing of a single `defaultArgs` entry `(k,v)` by the inner loop of
`Component::mergeArgs` (part_000 lines 900-912): for the keys `pod.args` and
`pod.env` the value is appended (space separated) to the current merged value,
for every other key `try_emplace` fills the value only if the key is absent. -/
def mergeEntry (merged : Conf) (kv : String × String) : Conf :=
  if kv.1 = "pod.args" || kv.1 = "pod.env" then
    let m0 := (confGet merged kv.1).getD ""
    let m1 := if m0.isEmpty then kv.2 else m0 ++ " " ++ kv.2
    confSet merged kv.1 m1
  else
    tryEmplace merged kv.1 kv.2

/-- Processing of one path node by `Component::mergeArgs`: fold `mergeEntry` over
all entries of that node's `defaultArgs`. -/
def mergeNode (merged : Conf) (defaults : Conf) : Conf :=
  defaults.foldl mergeEntry merged

/-- The `Component::getPathToRoot` walk (part_000 lines 918-925): the node itself
first, then its ancestors up to the root.  `ancestors` lists the ancestor chain
nearest-first (parent, grandparent, ..., root). -/
def getPathToRoot (self : ComponentData) (ancestors : List ComponentData) :
    List ComponentData :=
  self :: ancestors

/-- `Component::mergeArgs` (part_000 lines 896-916): start from the local `args`
and fold every path node's `defaultArgs` over it, walking `getPathToRoot`
(the component itself first, the root last). -/
def mergeArgs (self : ComponentData) (ancestors : List ComponentData) : Conf :=
  (getPathToRoot self ancestors).foldl (fun m node => mergeNode m node.defaultArgs)
    self.args

/-- Space-joining step of the `pod.args`/`pod.env` merge: append `v` to `a`,
separated by one space when `a` is non-empty. -/
def stepS (a v : String) : String :=
  if a.isEmpty then v else a ++ " " ++ v

/-- Option-level version of `stepS`; an absent entry behaves like the empty
string freshly created by `merged[k]`. -/
def stepO (o : Option String) (v : String) : Option String :=
  some (stepS (o.getD "") v)

/-- Values carried by key `k` inside one `defaultArgs` map, in entry order. -/
def valuesFor (k : String) (defaults : Conf) : List String :=
  (defaults.filter (fun p => decide (p.1 = k))).map (fun p => p.2)

/-- Values carried by key `k` along a whole path of nodes, path order. -/
def pathValues (k : String) (path : List ComponentData) : List String :=
  (path.map (fun n => valuesFor k n.defaultArgs)).flatten

/-- First-of variant of the option choice used to state the fill-in-if-absent
merge policy. -/
def orD (o o2 : Option String) : Option String :=
  match o with
  | some a => some a
  | none => o2

/-- Whitespace test of `Component::getArgAsStringList` (space, tab, CR, LF). -/
def isWs (c : Char) : Bool :=
  c = ' ' || c = '\t' || c = '\r' || c = '\n'

/-- Single-quote character, spelled by code point. -/
def squote : Char := Char.ofNat 39

/-- Scanner state of `Component::getArgAsStringList` (part_000 lines 168-172). -/
inductive SLState
  | SKIPPING
  | IN_STRING
  | IN_QUOTED_STRING
deriving DecidableEq, Repr

/-- Character loop of `Component::getArgAsStringList` (part_000 lines 177-206),
including the source's fall-through from the `IN_STRING` case into the
`IN_QUOTED_STRING` case: in an unquoted token a quote character also ends the
token.  Arguments: state, current token, collected tokens, remaining input. -/
def slLoop : SLState → List Char → List (List Char) → List Char → List (List Char)
  | _, value, rval, [] => if value.isEmpty then rval else rval ++ [value]
  | .SKIPPING, value, rval, ch :: rest =>
      if isWs ch then slLoop .SKIPPING value rval rest
      else if ch = squote then slLoop .IN_QUOTED_STRING value rval rest
      else slLoop .IN_STRING (value ++ [ch]) rval rest
  | .IN_STRING, value, rval, ch :: rest =>
      if isWs ch then slLoop .SKIPPING [] (rval ++ [value]) rest
      else if ch = squote then slLoop .SKIPPING [] (rval ++ [value]) rest
      else slLoop .IN_STRING (value ++ [ch]) rval rest
  | .IN_QUOTED_STRING, value, rval, ch :: rest =>
      if ch = squote then slLoop .SKIPPING [] (rval ++ [value]) rest
      else slLoop .IN_QUOTED_STRING (value ++ [ch]) rval rest

/-- `Component::getArgAsStringList` (part_000 lines 164-213). -/
def getArgAsStringList (values : String) : List String :=
  (slLoop .SKIPPING [] [] values.data).map (fun l => String.mk l)

/-- Resource kinds, the `Kind` enumeration. -/
inductive Kind
  | APP
  | JOB
  | DEPLOYMENT
  | STATEFULSET
  | SERVICE
  | CONFIGMAP
  | SECRET
  | PERSISTENTVOLUME
  | INGRESS
  | NAMESPACE
  | DAEMONSET
  | ROLE
  | CLUSTERROLE
  | ROLEBINDING
  | CLUSTERROLEBINDING
  | SERVICEACCOUNT
deriving DecidableEq, Repr

/-- The textual kind table `kinds` (part_000 lines 38-54), entry for entry,
including the source's spelling of the persistent-volume key. -/
def kinds : List (String × Kind) :=
  [("App", Kind.APP),
   ("Job", Kind.JOB),
   ("Deployment", Kind.DEPLOYMENT),
   ("StatefulSet", Kind.STATEFULSET),
   ("Service", Kind.SERVICE),
   ("ConfigMap", Kind.CONFIGMAP),
   ("Secret", Kind.SECRET),
   ("PersitentVolume", Kind.PERSISTENTVOLUME),
   ("Ingress", Kind.INGRESS),
   ("Namespace", Kind.NAMESPACE),
   ("DaemonSet", Kind.DAEMONSET),
   ("Role", Kind.ROLE),
   ("ClusterRole", Kind.CLUSTERROLE),
   ("RoleBinding", Kind.ROLEBINDING),
   ("ClusterRoleBinding", Kind.CLUSTERROLEBINDING),
   ("ServiceAccount", Kind.SERVICEACCOUNT)]

/-- `toKind` (part_000 lines 66-69): `kinds.at(kind)`; `none` models the
`std::out_of_range` thrown for a key that is not in the table. -/
def toKind (kind : String) : Option Kind :=
  (kinds.find? (fun p => decide (p.1 = kind))).map (fun p => p.2)

/-- `Component::getBoolArg` (part_000 lines 133-148): absent key gives an empty
optional, one of the six boolean spellings gives a value, anything else throws. -/
def getBoolArg (effectiveArgs : Conf) (name : String) : Except String (Option Bool) :=
  match confGet effectiveArgs name with
  | some v =>
      if v = "true" || v = "yes" || v = "1" then Except.ok (some true)
      else if v = "false" || v = "no" || v = "0" then Except.ok (some false)
      else Except.error ("Argument " ++ name ++
        " is not a boolean value (1|0|true|false|yes|no)")
  | none => Except.ok none

/-- Variable lookup `getVar` (part_000 lines 1310-1325): the variable map first,
then the process environment, then the supplied default, else the empty string. -/
def getVar (name : String) (vars : List (String × String))
    (defaultValue : Option String) (env : String → Option String) : String :=
  match (vars.find? (fun p => decide (p.1 = name))).map (fun p => p.2) with
  | some v => v
  | none =>
      match env name with
      | some v => v
      | none =>
          match defaultValue with
          | some d => d
          | none => ""

/-- Scanner state of `expandVariables` (part_000 lines 1332-1338); the name and
default accumulators of the source are carried inside the state. -/
inductive ExpState
  | copy
  | backslash
  | dollar
  | scanName (varName : List Char)
  | scanDefault (varName : List Char) (defaultValue : List Char)
deriving DecidableEq, Repr

/-- Name-character test of the `SCAN_NAME` state: `isalnum` in the C locale,
dot or underscore. -/
def isNameChar (c : Char) : Bool :=
  c.isAlphanum || c = '.' || c = '_'

/-- Double-quote character, spelled by code point. -/
def dquote : Char := Char.ofNat 34

/-- Resolution of a scanned default value at the commit point (part_000 lines
1390-1394): a default beginning with a dollar sign is looked up in the process
environment and replaced by the value found there, when one is found. -/
def resolveDefault (dv : Option (List Char)) (env : String → Option String) :
    Option String :=
  match dv with
  | none => none
  | some d =>
      match d with
      | '$' :: rest =>
          match env (String.mk rest) with
          | some e => some e
          | none => some (String.mk d)
      | _ => some (String.mk d)

/-- Character loop of `expandVariables` (part_000 lines 1346-1418).  Arguments:
state, output accumulator, remaining input.  A non-`COPY` state at the end of
the input is the "not properly terminated" error of the source; an illegal
character inside a name is the "error scanning variable-name" error. -/
def expandLoop (vars : List (String × String)) (env : String → Option String) :
    ExpState → List Char → List Char → Except String (List Char)
  | .copy, acc, [] => Except.ok acc
  | .copy, acc, ch :: rest =>
      if ch = '\\' then expandLoop vars env .backslash acc rest
      else if ch = '$' then expandLoop vars env .dollar acc rest
      else expandLoop vars env .copy (acc ++ [ch]) rest
  | .backslash, _, [] => Except.error "Error expanding macro"
  | .backslash, acc, ch :: rest =>
      if ch ≠ '$' then expandLoop vars env .copy (acc ++ ['\\', ch]) rest
      else expandLoop vars env .copy (acc ++ [ch]) rest
  | .dollar, _, [] => Except.error "Error expanding macro"
  | .dollar, acc, ch :: rest =>
      if ch = '{' then expandLoop vars env (.scanName []) acc rest
      else expandLoop vars env .copy (acc ++ ['$', ch]) rest
  | .scanName _, _, [] => Except.error "Error expanding macro"
  | .scanName vn, acc, ch :: rest =>
      if isNameChar ch then expandLoop vars env (.scanName (vn ++ [ch])) acc rest
      else if ch = ',' then expandLoop vars env (.scanDefault vn []) acc rest
      else if ch = '}' then
        expandLoop vars env .copy
          (acc ++ (getVar (String.mk vn) vars (resolveDefault none env) env).data) rest
      else Except.error "Error expanding macro"
  | .scanDefault _ _, _, [] => Except.error "Error expanding macro"
  | .scanDefault vn dv, acc, ch :: rest =>
      if ch = '}' then
        expandLoop vars env .copy
          (acc ++ (getVar (String.mk vn) vars (resolveDefault (some dv) env) env).data) rest
      else if ch = dquote then
        expandLoop vars env (.scanDefault vn (dv ++ ['\\', ch])) acc rest
      else expandLoop vars env (.scanDefault vn (dv ++ [ch])) acc rest

/-- `expandVariables` (part_000 lines 1327-1421). -/
def expandVariables (json : String) (vars : List (String × String))
    (env : String → Option String) : Except String String :=
  (expandLoop vars env .copy [] json.data).map (fun l => String.mk l)

/-- Characterisation of the inputs the copy loop of `expandVariables` passes
through verbatim: no backslash and no dollar sign may end the input, no
backslash may be followed by a dollar sign, and no dollar sign by an opening
brace; every other character is copied unchanged. -/
def passesThrough : List Char → Bool
  | [] => true
  | c :: rest =>
      if c = '\\' then
        match rest with
        | [] => false
        | c2 :: rest2 => if c2 = '$' then false else passesThrough rest2
      else if c = '$' then
        match rest with
        | [] => false
        | c2 :: rest2 => if c2 = '{' then false else passesThrough rest2
      else passesThrough rest

/-- Edge relation of the `dependsOn` graph: component `a` depends on component
`b` when the edge list contains `(a, b)`. -/
def edgeRel (g : List (Nat × Nat)) (a b : Nat) : Prop :=
  (a, b) ∈ g

/-- One saturation step of reachability: add the target of every edge whose
source is already in the set. -/
def closureStep (g : List (Nat × Nat)) (s : Finset Nat) : Finset Nat :=
  s ∪ ((g.filter (fun e => decide (e.1 ∈ s))).map (fun e => e.2)).toFinset

/-- Set of nodes reachable from `x` by zero or more `dependsOn` edges, computed
by saturating `closureStep`; `g.length + 1` rounds suffice because every round
short of the fixpoint adds at least one of the at most `g.length` edge targets. -/
def reachSet (g : List (Nat × Nat)) (x : Nat) : Finset Nat :=
  (closureStep g)^[g.length + 1] ({x} : Finset Nat)

/-- `Component::addDependenciesRecursively` (part_000 lines 633-642) as the set
it fills: everything reachable from `x` through at least one `dependsOn` edge. -/
def addDependenciesRecursively (g : List (Nat × Nat)) (x : Nat) : Finset Nat :=
  (((g.filter (fun e => decide (e.1 = x))).map (fun e => e.2)).toFinset).biUnion
    (reachSet g)

/-- `Component::addDependency` (part_000 lines 1223-1247): refuse a self edge,
then refuse the edge when the destination already transitively depends on the
source, then skip a duplicate edge, otherwise append the edge. -/
def addDependency (g : List (Nat × Nat)) (src dst : Nat) :
    Except String (List (Nat × Nat)) :=
  if src = dst then Except.error "Cannot depend on myself!"
  else if src ∈ addDependenciesRecursively g dst then
    Except.error "Circular dependency"
  else if (src, dst) ∈ g then Except.ok g
  else Except.ok (g ++ [(src, dst)])

/-- Sequence of `addDependency` insertions starting from the empty edge list;
the first refused insertion aborts the run, as a thrown exception does. -/
def addAll (reqs : List (Nat × Nat)) : Except String (List (Nat × Nat)) :=
  reqs.foldlM (fun g r => addDependency g r.1 r.2) []

/-- `Component::isBlockedOnDependency` (part_000 lines 454-468): in CREATE mode
the component is blocked while any component it depends on is not DONE. -/
def isBlockedOnDependency (mode : Mode) (dependsOn : List CompState) : Bool :=
  if mode = Mode.CREATE then dependsOn.any (fun s => decide (s ≠ CompState.DONE))
  else false

/-- Dependency loop of `Component::Task::evaluate` (part_000 lines 977-998):
`none` models the early `DEPENDENCY_FAILED` return taken at the first dependency
at or beyond ABORTED, `some blocked` the completed loop. -/
def depScan : List TaskState → Bool → Option Bool
  | [], blocked => some blocked
  | d :: rest, blocked =>
      let b2 := if d = TaskState.DONE then blocked else true
      if TaskState.ABORTED.toNat ≤ d.toNat then none
      else depScan rest b2

/-- `Component::Task::evaluate` (part_000 lines 957-1008) as a function of the
data it reads: the mode, the states of the owning component's `dependsOn`
components, the states of the task's dependencies, and the task's own state.
It returns the new task state and the changed flag the source returns. -/
def taskEvaluate (mode : Mode) (dependsOn : List CompState)
    (deps : List TaskState) (st0 : TaskState) : TaskState × Bool :=
  let st1 := if st0 = TaskState.PRE then TaskState.BLOCKED else st0
  let changed := st0 = TaskState.PRE
  if st1 = TaskState.BLOCKED then
    if mode = Mode.CREATE ∧ isBlockedOnDependency mode dependsOn = true then
      (st1, changed)
    else
      match depScan deps false with
      | none => (TaskState.DEPENDENCY_FAILED, true)
      | some true => (st1, changed)
      | some false => (TaskState.READY, true)
  else (st1, changed)

/-- Task loop of `Component::evaluate` (part_000 lines 550-577).  Arguments:
remaining task states, current component state, `newState`, `allDone`.  Result:
component state, `newState` and `allDone` after the loop, where a task beyond
DONE sets the component FAILED and breaks out of the loop. -/
def evalTasksLoop : List TaskState → CompState → CompState → Bool →
    CompState × CompState × Bool
  | [], st, ns, ad => (st, ns, ad)
  | t :: rest, st, ns, ad =>
      let ns2 := if TaskState.BLOCKED.toNat ≤ t.toNat ∧ st = CompState.CREATING
                 then CompState.RUNNING else ns
      let ad2 := if t = TaskState.DONE then ad else false
      if TaskState.DONE.toNat < t.toNat ∧ st.toNat < CompState.FAILED.toNat then
        (CompState.FAILED, ns2, ad2)
      else evalTasksLoop rest st ns2 ad2

/-- Child loop of `Component::evaluate` (part_000 lines 580-595): `none` models
the `FAILED` return taken at the first child beyond DONE, `some blockedOnChild`
the completed loop. -/
def childScanLoop : List CompState → Bool → Option Bool
  | [], blocked => some blocked
  | c :: rest, blocked =>
      if c ≠ CompState.DONE then
        if CompState.DONE.toNat < c.toNat then none
        else childScanLoop rest true
      else childScanLoop rest blocked

/-- Final `setState(newState)` step of `Component::evaluate` (part_000 lines
607-609): promote the component when it has tasks and `newState` is larger. -/
def evalFinal (tasks : List TaskState) (st ns : CompState) : CompState :=
  if tasks.length ≠ 0 ∧ st.toNat < ns.toNat then ns else st

/-- `Component::evaluate` (part_000 lines 543-611) as a function of the data it
reads (mode, `dependsOn` states, child states, the component's own task states
and its current state), returning the component state after the call. -/
def compEvaluate (mode : Mode) (dependsOn : List CompState)
    (children : List CompState) (tasks : List TaskState) (st0 : CompState) :
    CompState :=
  match evalTasksLoop tasks st0 CompState.CREATING true with
  | (st, ns, ad) =>
    if ad then
      match childScanLoop children false with
      | none => CompState.FAILED
      | some blockedOnChild =>
          if isBlockedOnDependency mode dependsOn then st
          else if blockedOnChild = false then CompState.DONE
          else evalFinal tasks st ns
    else evalFinal tasks st ns

/-- Success branch of `ServiceComponent::doDeploy` (Cluster.cpp lines 253-271):
the task is set DONE and, when the component is RUNNING, the component is set
DONE directly; the child states are not consulted. -/
def serviceDoDeploySuccess (children : List CompState) (st : CompState) :
    TaskState × CompState :=
  (TaskState.DONE, if st = CompState.RUNNING then CompState.DONE else st)

/-- Cluster event as far as the deployment task closure reads it. -/
structure Event where
  involvedObjectKind : String
  involvedObjectName : String
  metadataNamespace : String
  metadataName : String
  reason : String

/-- Matching condition of the `DeploymentComponent::addTasks` event closure
(part_001 lines 84-89): a Created event for a pod whose names carry the
component's name followed by a dash, in the deployment's namespace. -/
def deploymentEventMatches (name ns : String) (e : Event) : Bool :=
  let key := name ++ "-"
  e.involvedObjectKind = "Pod"
  && e.involvedObjectName.take key.length = key
  && e.metadataNamespace = ns
  && e.metadataName.take key.length = key
  && e.reason = "Created"

/-- Monitoring branch of the `DeploymentComponent::addTasks` event closure
(part_001 lines 80-101): a matching event increments the started-pod counter
and, when the counter reaches the replica count, sets the task DONE and the
component DONE directly; the child states are not consulted. -/
def deploymentOnPodEvent (name ns : String) (children : List CompState)
    (replicas podsStarted : Nat) (taskSt : TaskState) (st : CompState)
    (e : Event) : Nat × TaskState × CompState :=
  if deploymentEventMatches name ns e then
    let p := podsStarted + 1
    if replicas ≤ p then (p, TaskState.DONE, CompState.DONE)
    else (p, taskSt, st)
  else (podsStarted, taskSt, st)

/-- Outcome of the HTTP DELETE issued by `Component::sendDelete`: a response the
client does not throw for, a `RequestFailedWithErrorException` carrying a status
code, or any other exception. -/
inductive DeleteOutcome
  | success
  | requestFailed (statusCode : Nat)
  | otherException

/-- Result handling of `Component::sendDelete` (part_000 lines 1158-1213) as a
function of the outcome, the `ignoreErrors` flag and the component state,
returning the task state it sets and the component state after the call. -/
def sendDelete (outcome : DeleteOutcome) (ignoreErrors : Bool)
    (compSt : CompState) : TaskState × CompState :=
  match outcome with
  | .success => (TaskState.DONE, compSt)
  | .requestFailed code =>
      if code = 404 then (TaskState.DONE, compSt)
      else
        ((if ignoreErrors then TaskState.DONE else TaskState.FAILED),
         (if ignoreErrors then compSt else CompState.FAILED))
  | .otherException =>
      ((if ignoreErrors then TaskState.DONE else TaskState.FAILED),
       (if ignoreErrors then compSt else CompState.FAILED))

/-- Saturation prefix of `reachSet`: the set after `n` rounds of `closureStep`. -/
def reachIter (g : List (Nat × Nat)) (x : Nat) (n : Nat) : Finset Nat :=
  (closureStep g)^[n] ({x} : Finset Nat)

/-- Acyclicity of the `dependsOn` edge list: no component transitively depends
on itself. -/
def Acyclic (g : List (Nat × Nat)) : Prop :=
  ∀ a, ¬ Relation.TransGen (edgeRel g) a a

/-- Process environment binding only the variable `PORT`, used to exercise the
resolution order of `getVar`. -/
def envPortOnly : String → Option String :=
  fun n => if n = "PORT" then some "9090" else none

/-- Empty process environment. -/
def envNone : String → Option String :=
  fun _ => none

/-! Theorems settling the claims. -/

/-- C4: evaluating the string-list scanner at the failing input `ab'cd`.  The
`IN_STRING` case of the source falls through into the `IN_QUOTED_STRING` case,
so the quote character inside the unquoted token ends the token and the input
splits into two tokens, where the intended behaviour (quotes only terminate
quoted tokens) would keep the single token `ab'cd`. -/
theorem getArgAsStringList_quote_ends_unquoted_token :
    getArgAsStringList (String.mk ['a', 'b', squote, 'c', 'd']) = ["ab", "cd"] := by
  decide

/-- C5 counterexample: the conventional kind name `PersistentVolume` is not
accepted by `toKind`, because the `kinds` table spells its key
`PersitentVolume`. -/
theorem toKind_persistentVolume_fails :
    toKind "PersistentVolume" = none := by
  decide

/-- C5 (amended): `toKind` succeeds exactly on the sixteen keys of the `kinds`
table — which spell the persistent-volume kind `PersitentVolume` — returning
the matching enum value, and fails on every other string. -/
theorem toKind_spec :
    (toKind "App" = some Kind.APP ∧
     toKind "Job" = some Kind.JOB ∧
     toKind "Deployment" = some Kind.DEPLOYMENT ∧
     toKind "StatefulSet" = some Kind.STATEFULSET ∧
     toKind "Service" = some Kind.SERVICE ∧
     toKind "ConfigMap" = some Kind.CONFIGMAP ∧
     toKind "Secret" = some Kind.SECRET ∧
     toKind "PersitentVolume" = some Kind.PERSISTENTVOLUME ∧
     toKind "Ingress" = some Kind.INGRESS ∧
     toKind "Namespace" = some Kind.NAMESPACE ∧
     toKind "DaemonSet" = some Kind.DAEMONSET ∧
     toKind "Role" = some Kind.ROLE ∧
     toKind "ClusterRole" = some Kind.CLUSTERROLE ∧
     toKind "RoleBinding" = some Kind.ROLEBINDING ∧
     toKind "ClusterRoleBinding" = some Kind.CLUSTERROLEBINDING ∧
     toKind "ServiceAccount" = some Kind.SERVICEACCOUNT) ∧
    ∀ s : String, s ∉ kinds.map Prod.fst → toKind s = none := by
  refine ⟨by decide, ?_⟩
  intro s hs
  have hfind : kinds.find? (fun p => decide (p.1 = s)) = none := by
    rw [List.find?_eq_none]
    intro x hx hpx
    have hx1 : x.1 = s := of_decide_eq_true hpx
    exact hs (hx1 ▸ List.mem_map_of_mem Prod.fst hx)
  simp [toKind, hfind]

/-- Witness for `toKind_spec`: a string outside the table is rejected. -/
theorem toKind_spec_w : toKind "Redeployment" = none :=
  toKind_spec.2 "Redeployment" (by decide)

/-- C7: `sendDelete` marks the task DONE and leaves the component alone on a
response without error and on a 404 error; on any other failure it marks the
task DONE when `ignoreErrors` is set, and otherwise marks the task FAILED and
the owning component FAILED. -/
theorem sendDelete_spec :
    ∀ (ig : Bool) (c0 : CompState) (code : Nat),
    sendDelete DeleteOutcome.success ig c0 = (TaskState.DONE, c0)
    ∧ sendDelete (DeleteOutcome.requestFailed 404) ig c0 = (TaskState.DONE, c0)
    ∧ (code ≠ 404 →
        sendDelete (DeleteOutcome.requestFailed code) true c0 = (TaskState.DONE, c0))
    ∧ (code ≠ 404 →
        sendDelete (DeleteOutcome.requestFailed code) false c0 =
          (TaskState.FAILED, CompState.FAILED))
    ∧ sendDelete DeleteOutcome.otherException true c0 = (TaskState.DONE, c0)
    ∧ sendDelete DeleteOutcome.otherException false c0 =
        (TaskState.FAILED, CompState.FAILED) := by
  intro ig c0 code
  refine ⟨rfl, by simp [sendDelete], ?_, ?_, rfl, rfl⟩
  · intro h
    simp [sendDelete, h]
  · intro h
    simp [sendDelete, h]

/-- Witness for `sendDelete_spec`: a 500 error without `ignoreErrors` fails the
task and the component. -/
theorem sendDelete_spec_w :
    sendDelete (DeleteOutcome.requestFailed 500) false CompState.RUNNING =
      (TaskState.FAILED, CompState.FAILED) :=
  (sendDelete_spec false CompState.RUNNING 500).2.2.2.1 (by decide)

/-- C10: `getBoolArg` returns an empty optional for a key absent from the
effective arguments, and raises its "not a boolean value" error only when the
key is present with a value outside the six boolean spellings. -/
theorem getBoolArg_spec :
    ∀ (args : Conf) (name : String),
    (confGet args name = none → getBoolArg args name = Except.ok none)
    ∧ (∀ msg, getBoolArg args name = Except.error msg →
        ∃ v, confGet args name = some v ∧ v ≠ "true" ∧ v ≠ "yes" ∧ v ≠ "1" ∧
          v ≠ "false" ∧ v ≠ "no" ∧ v ≠ "0") := by
  intro args name
  constructor
  · intro h
    simp [getBoolArg, h]
  · intro msg herr
    cases hc : confGet args name with
    | none => exact (Except.noConfusion (by simpa only [getBoolArg, hc] using herr))
    | some v =>
        simp only [getBoolArg, hc] at herr
        refine ⟨v, rfl, ?_, ?_, ?_, ?_, ?_, ?_⟩ <;>
          · rintro rfl
            simp at herr

/-- Witness for `getBoolArg_spec`: an absent key yields an empty optional. -/
theorem getBoolArg_spec_w : getBoolArg [] "service.enabled" = Except.ok none :=
  (getBoolArg_spec [] "service.enabled").1 rfl

/-- Dependency loop characterisation, failing case: the loop returns early with
`DEPENDENCY_FAILED` exactly when some dependency is at or beyond ABORTED. -/
theorem depScan_eq_none_iff (deps : List TaskState) (b : Bool) :
    depScan deps b = none ↔ ∃ d ∈ deps, TaskState.ABORTED.toNat ≤ d.toNat := by
  induction deps generalizing b with
  | nil => simp [depScan]
  | cons d rest ih =>
      by_cases hd : TaskState.ABORTED.toNat ≤ d.toNat
      · simp [depScan, hd]
      · simp [depScan, hd, ih]

/-- Dependency loop characterisation, completed case: without a dependency at or
beyond ABORTED the loop reports whether any dependency is not DONE. -/
theorem depScan_eq_some (deps : List TaskState) (b : Bool)
    (h : ∀ d ∈ deps, d.toNat < TaskState.ABORTED.toNat) :
    depScan deps b = some (b || deps.any (fun d => decide (d ≠ TaskState.DONE))) := by
  induction deps generalizing b with
  | nil => simp [depScan]
  | cons d rest ih =>
      have hd := h d (List.mem_cons_self d rest)
      have hrest : ∀ x ∈ rest, x.toNat < TaskState.ABORTED.toNat :=
        fun x hx => h x (List.mem_cons_of_mem d hx)
      simp only [depScan, Nat.not_le.mpr hd, if_neg (Nat.not_le.mpr hd |> fun hh => hh)]
      by_cases hdone : d = TaskState.DONE
      · simp [hdone, Nat.not_le.mpr hd, ih _ hrest]
      · simp [hdone, Nat.not_le.mpr hd, ih _ hrest]

/-- Boolean test of `isBlockedOnDependency` in propositional form. -/
theorem isBlockedOnDependency_eq_true_iff (mode : Mode) (dependsOn : List CompState) :
    isBlockedOnDependency mode dependsOn = true ↔
      mode = Mode.CREATE ∧ ∃ c ∈ dependsOn, c ≠ CompState.DONE := by
  unfold isBlockedOnDependency
  by_cases hm : mode = Mode.CREATE
  · simp [hm]
  · simp [hm]

/-- C8: `Task::evaluate` moves a PRE task to BLOCKED unconditionally and then
applies the BLOCKED rules in the same call; a BLOCKED task stays BLOCKED (and
the call reports no change unless the task just left PRE) while, in CREATE
mode, the owning component is blocked on a dependsOn component that is not
DONE; otherwise a dependency at or beyond ABORTED makes the task
DEPENDENCY_FAILED with a reported change, a dependency that is not DONE keeps
the task BLOCKED, and all-DONE dependencies make the task READY; any other
state is left untouched. -/
theorem taskEvaluate_spec :
    ∀ (mode : Mode) (dependsOn : List CompState) (deps : List TaskState)
      (st0 : TaskState),
    (st0 ≠ TaskState.PRE → st0 ≠ TaskState.BLOCKED →
      taskEvaluate mode dependsOn deps st0 = (st0, false))
    ∧ (st0 = TaskState.PRE ∨ st0 = TaskState.BLOCKED →
        mode = Mode.CREATE → (∃ c ∈ dependsOn, c ≠ CompState.DONE) →
        taskEvaluate mode dependsOn deps st0 =
          (TaskState.BLOCKED, decide (st0 = TaskState.PRE)))
    ∧ (st0 = TaskState.PRE ∨ st0 = TaskState.BLOCKED →
        ¬(mode = Mode.CREATE ∧ ∃ c ∈ dependsOn, c ≠ CompState.DONE) →
        ((∃ d ∈ deps, TaskState.ABORTED.toNat ≤ d.toNat) →
            taskEvaluate mode dependsOn deps st0 = (TaskState.DEPENDENCY_FAILED, true))
        ∧ ((∀ d ∈ deps, d.toNat < TaskState.ABORTED.toNat) →
            (∃ d ∈ deps, d ≠ TaskState.DONE) →
            taskEvaluate mode dependsOn deps st0 =
              (TaskState.BLOCKED, decide (st0 = TaskState.PRE)))
        ∧ ((∀ d ∈ deps, d = TaskState.DONE) →
            taskEvaluate mode dependsOn deps st0 = (TaskState.READY, true))) := by
  intro mode dependsOn deps st0
  refine ⟨?_, ?_, ?_⟩
  · intro h1 h2
    simp [taskEvaluate, h1, h2]
  · intro hst hm hdep
    subst hm
    have hb : isBlockedOnDependency Mode.CREATE dependsOn = true :=
      (isBlockedOnDependency_eq_true_iff Mode.CREATE dependsOn).mpr ⟨rfl, hdep⟩
    rcases hst with rfl | rfl
    · simp [taskEvaluate, hb]
    · simp [taskEvaluate, hb]
  · intro hst hnb
    have hb : isBlockedOnDependency mode dependsOn = false := by
      cases hbv : isBlockedOnDependency mode dependsOn
      · rfl
      · exact absurd ((isBlockedOnDependency_eq_true_iff mode dependsOn).mp hbv) hnb
    refine ⟨?_, ?_, ?_⟩
    · intro habort
      have hscan : depScan deps false = none := (depScan_eq_none_iff deps false).mpr habort
      rcases hst with rfl | rfl
      · simp [taskEvaluate, hb, hscan]
      · simp [taskEvaluate, hb, hscan]
    · intro hlt hne
      have hany : deps.any (fun d => decide (d ≠ TaskState.DONE)) = true := by
        rcases hne with ⟨d, hd, hdne⟩
        exact List.any_eq_true.mpr ⟨d, hd, decide_eq_true hdne⟩
      have hscan : depScan deps false = some true := by
        rw [depScan_eq_some deps false hlt, hany]
        rfl
      rcases hst with rfl | rfl
      · simp [taskEvaluate, hb, hscan]
      · simp [taskEvaluate, hb, hscan]
    · intro hall
      have hlt : ∀ d ∈ deps, d.toNat < TaskState.ABORTED.toNat := by
        intro d hd
        rw [hall d hd]
        decide
      have hany : deps.any (fun d => decide (d ≠ TaskState.DONE)) = false := by
        rw [List.any_eq_false]
        intro d hd
        simp [hall d hd]
      have hscan : depScan deps false = some false := by
        rw [depScan_eq_some deps false hlt, hany]
        rfl
      rcases hst with rfl | rfl
      · simp [taskEvaluate, hb, hscan]
      · simp [taskEvaluate, hb, hscan]

/-- Witness for `taskEvaluate_spec`: a PRE task whose only dependency is DONE
becomes READY within one evaluate. -/
theorem taskEvaluate_spec_w :
    taskEvaluate Mode.CREATE [] [TaskState.DONE] TaskState.PRE =
      (TaskState.READY, true) :=
  ((taskEvaluate_spec Mode.CREATE [] [TaskState.DONE] TaskState.PRE).2.2
      (Or.inl rfl) (by simp)).2.2 (by decide)

/-- Lookup on an empty map. -/
theorem confGet_nil (k : String) : confGet [] k = none := rfl

/-- Lookup step on a non-empty map. -/
theorem confGet_cons (k0 v0 : String) (rest : Conf) (k : String) :
    confGet ((k0, v0) :: rest) k = if k0 = k then some v0 else confGet rest k := by
  unfold confGet
  simp only [List.find?]
  by_cases h : k0 = k
  · simp [h]
  · simp [h]

/-- Lookup after `confSet` at the written key. -/
theorem confGet_confSet_self (m : Conf) (k v : String) :
    confGet (confSet m k v) k = some v := by
  induction m with
  | nil => simp [confSet, confGet_cons]
  | cons p rest ih =>
      obtain ⟨k0, v0⟩ := p
      by_cases h : k0 = k
      · simp [confSet, h, confGet_cons]
      · simp [confSet, h, confGet_cons, ih]

/-- Lookup after `confSet` at a different key. -/
theorem confGet_confSet_ne (m : Conf) (k v k2 : String) (h : k ≠ k2) :
    confGet (confSet m k v) k2 = confGet m k2 := by
  induction m with
  | nil => simp [confSet, confGet_cons, confGet_nil, h]
  | cons p rest ih =>
      obtain ⟨k0, v0⟩ := p
      by_cases h0 : k0 = k
      · simp [confSet, h0, confGet_cons, h]
      · simp [confSet, h0, confGet_cons, ih]

/-- Lookup split over an appended map. -/
theorem confGet_append (m1 m2 : Conf) (k : String) :
    confGet (m1 ++ m2) k = orD (confGet m1 k) (confGet m2 k) := by
  unfold confGet
  rw [List.find?_append]
  cases h : m1.find? (fun p => decide (p.1 = k)) with
  | none => simp [orD, Option.or]
  | some p => simp [orD, Option.or]

/-- Lookup after `tryEmplace` at the written key: the present value survives,
an absent key receives the new value. -/
theorem confGet_tryEmplace_self (m : Conf) (k v : String) :
    confGet (tryEmplace m k v) k = some ((confGet m k).getD v) := by
  unfold tryEmplace
  cases h : confGet m k with
  | none =>
      simp only [h, Option.isSome_none, Bool.false_eq_true, if_false]
      rw [confGet_append, h]
      simp [orD, confGet]
  | some a => simp [h]

/-- Lookup after `tryEmplace` at a different key. -/
theorem confGet_tryEmplace_ne (m : Conf) (k v k2 : String) (h : k ≠ k2) :
    confGet (tryEmplace m k v) k2 = confGet m k2 := by
  unfold tryEmplace
  split
  · rfl
  · rw [confGet_append]
    have h2 : confGet [(k, v)] k2 = none := by
      simp [confGet, h]
    rw [h2]
    cases confGet m k2 <;> rfl

/-- Lookup after one merge-loop entry carrying a different key. -/
theorem confGet_mergeEntry_ne (merged : Conf) (kv : String × String) (k : String)
    (h : kv.1 ≠ k) :
    confGet (mergeEntry merged kv) k = confGet merged k := by
  unfold mergeEntry
  split
  · exact confGet_confSet_ne merged kv.1 _ k h
  · exact confGet_tryEmplace_ne merged kv.1 kv.2 k h

/-- Lookup after one merge-loop entry at a concatenating key. -/
theorem confGet_mergeEntry_concat (merged : Conf) (k v : String)
    (hk : k = "pod.args" ∨ k = "pod.env") :
    confGet (mergeEntry merged (k, v)) k = stepO (confGet merged k) v := by
  have hcond : (decide (k = "pod.args") || decide (k = "pod.env")) = true := by
    rcases hk with rfl | rfl <;> simp
  unfold mergeEntry
  simp only [hcond, if_pos]
  rw [confGet_confSet_self]
  unfold stepO stepS
  rfl

/-- Lookup after one merge-loop entry at a fill-in-if-absent key. -/
theorem confGet_mergeEntry_other (merged : Conf) (k v : String)
    (h1 : k ≠ "pod.args") (h2 : k ≠ "pod.env") :
    confGet (mergeEntry merged (k, v)) k = some ((confGet merged k).getD v) := by
  have hcond : (decide (k = "pod.args") || decide (k = "pod.env")) = false := by
    simp [h1, h2]
  unfold mergeEntry
  simp only [hcond, Bool.false_eq_true, if_false]
  exact confGet_tryEmplace_self merged k v

/-- Lookup through one node's `defaultArgs` at a concatenating key: the node's
values for the key are folded onto the incoming value in entry order. -/
theorem confGet_mergeNode_concat (defaults : Conf) (merged : Conf) (k : String)
    (hk : k = "pod.args" ∨ k = "pod.env") :
    confGet (mergeNode merged defaults) k =
      (valuesFor k defaults).foldl stepO (confGet merged k) := by
  induction defaults generalizing merged with
  | nil => simp [mergeNode, valuesFor]
  | cons kv rest ih =>
      obtain ⟨k0, v0⟩ := kv
      by_cases h : k0 = k
      · subst h
        have hstep := confGet_mergeEntry_concat merged k0 v0 hk
        simp only [mergeNode, List.foldl_cons] at *
        rw [ih (mergeEntry merged (k0, v0)), hstep]
        simp [valuesFor]
      · have hstep := confGet_mergeEntry_ne merged (k0, v0) k h
        simp only [mergeNode, List.foldl_cons] at *
        rw [ih (mergeEntry merged (k0, v0)), hstep]
        simp [valuesFor, h]

/-- Lookup through one node's `defaultArgs` at a fill-in-if-absent key: the
incoming value wins, else the node's first value for the key. -/
theorem confGet_mergeNode_other (defaults : Conf) (merged : Conf) (k : String)
    (h1 : k ≠ "pod.args") (h2 : k ≠ "pod.env") :
    confGet (mergeNode merged defaults) k =
      orD (confGet merged k) (valuesFor k defaults).head? := by
  induction defaults generalizing merged with
  | nil => simp [mergeNode, valuesFor, orD]; cases confGet merged k <;> rfl
  | cons kv rest ih =>
      obtain ⟨k0, v0⟩ := kv
      by_cases h : k0 = k
      · subst h
        have hstep := confGet_mergeEntry_other merged k0 v0 h1 h2
        simp only [mergeNode, List.foldl_cons] at *
        rw [ih (mergeEntry merged (k0, v0)), hstep]
        have hv : valuesFor k0 ((k0, v0) :: rest) = v0 :: valuesFor k0 rest := by
          simp [valuesFor]
        rw [hv, List.head?_cons]
        cases confGet merged k0 <;> simp [orD]
      · have hstep := confGet_mergeEntry_ne merged (k0, v0) k h
        simp only [mergeNode, List.foldl_cons] at *
        rw [ih (mergeEntry merged (k0, v0)), hstep]
        simp [valuesFor, h]

/-- First-of choice with an empty second operand. -/
theorem orD_none_right (o : Option String) : orD o none = o := by
  cases o <;> rfl

/-- Associativity of the first-of choice. -/
theorem orD_assoc (a b c : Option String) : orD (orD a b) c = orD a (orD b c) := by
  cases a <;> rfl

/-- Head of an appended list as a first-of choice. -/
theorem head?_append_orD (l1 l2 : List String) :
    (l1 ++ l2).head? = orD l1.head? l2.head? := by
  cases l1 <;> rfl

/-- Lookup through a whole path fold at a concatenating key. -/
theorem confGet_mergePath_concat (path : List ComponentData) (m : Conf) (k : String)
    (hk : k = "pod.args" ∨ k = "pod.env") :
    confGet (path.foldl (fun acc node => mergeNode acc node.defaultArgs) m) k =
      (pathValues k path).foldl stepO (confGet m k) := by
  induction path generalizing m with
  | nil => simp [pathValues]
  | cons n rest ih =>
      simp only [List.foldl_cons]
      rw [ih (mergeNode m n.defaultArgs), confGet_mergeNode_concat _ _ _ hk]
      have hp : pathValues k (n :: rest) =
          valuesFor k n.defaultArgs ++ pathValues k rest := by
        simp [pathValues]
      rw [hp, List.foldl_append]

/-- Lookup through a whole path fold at a fill-in-if-absent key. -/
theorem confGet_mergePath_other (path : List ComponentData) (m : Conf) (k : String)
    (h1 : k ≠ "pod.args") (h2 : k ≠ "pod.env") :
    confGet (path.foldl (fun acc node => mergeNode acc node.defaultArgs) m) k =
      orD (confGet m k) (pathValues k path).head? := by
  induction path generalizing m with
  | nil => simp [pathValues, orD_none_right]
  | cons n rest ih =>
      simp only [List.foldl_cons]
      rw [ih (mergeNode m n.defaultArgs), confGet_mergeNode_other _ _ _ h1 h2]
      have hp : pathValues k (n :: rest) =
          valuesFor k n.defaultArgs ++ pathValues k rest := by
        simp [pathValues]
      rw [hp, head?_append_orD, orD_assoc]

/-- C2 (amended): for `pod.args` and `pod.env` the merged value folds the
space-joining step over the `defaultArgs` values collected along
`getPathToRoot` — the component itself first, the root last — starting from the
local `args` value; for every other key the local `args` value wins, else the
first `defaultArgs` occurrence along the same nearest-first path (so the
component's own `defaultArgs` precede every ancestor, and a nearer ancestor
precedes a farther one). -/
theorem mergeArgs_spec :
    ∀ (self : ComponentData) (ancestors : List ComponentData) (k : String),
    ((k = "pod.args" ∨ k = "pod.env") →
      confGet (mergeArgs self ancestors) k =
        (pathValues k (getPathToRoot self ancestors)).foldl stepO
          (confGet self.args k))
    ∧ (k ≠ "pod.args" → k ≠ "pod.env" →
      confGet (mergeArgs self ancestors) k =
        orD (confGet self.args k) (pathValues k (getPathToRoot self ancestors)).head?) := by
  intro self ancestors k
  constructor
  · intro hk
    exact confGet_mergePath_concat _ _ _ hk
  · intro h1 h2
    exact confGet_mergePath_other _ _ _ h1 h2

/-- Witness for `mergeArgs_spec` at a concrete component with one ancestor. -/
theorem mergeArgs_spec_w :
    confGet (mergeArgs ⟨[("pod.args", "local")], []⟩
        [⟨[], [("pod.args", "root")]⟩]) "pod.args" =
      (pathValues "pod.args"
          (getPathToRoot ⟨[("pod.args", "local")], []⟩
            [⟨[], [("pod.args", "root")]⟩])).foldl stepO
        (confGet [("pod.args", "local")] "pod.args") :=
  (mergeArgs_spec ⟨[("pod.args", "local")], []⟩ [⟨[], [("pod.args", "root")]⟩]
    "pod.args").1 (Or.inl rfl)

/-- C2 counterexample: with no local value and two ancestors carrying
`pod.args` defaults, the merged value concatenates nearest-ancestor first
(`near root`), not root first (`root near`) as the claim states; and the
component's own `defaultArgs` entry does contribute (`self root`), while the
claim admits only ancestors. -/
theorem mergeArgs_counterexample :
    (confGet (mergeArgs ⟨[], []⟩
        [⟨[], [("pod.args", "near")]⟩, ⟨[], [("pod.args", "root")]⟩]) "pod.args" =
          some "near root"
      ∧ (some "near root" : Option String) ≠ some "root near")
    ∧ (confGet (mergeArgs ⟨[], [("pod.args", "self")]⟩
        [⟨[], [("pod.args", "root")]⟩]) "pod.args" = some "self root"
      ∧ (some "self root" : Option String) ≠ some "root") := by
  decide

/-- Name scanning runs through a block of name characters, accumulating them. -/
theorem expandLoop_scanName_chunk (vars : List (String × String))
    (env : String → Option String) :
    ∀ (cs vn acc rest : List Char),
    (∀ c ∈ cs, isNameChar c = true) →
    expandLoop vars env (ExpState.scanName vn) acc (cs ++ rest) =
      expandLoop vars env (ExpState.scanName (vn ++ cs)) acc rest := by
  intro cs
  induction cs with
  | nil => intro vn acc rest _; simp
  | cons c cs2 ih =>
      intro vn acc rest h
      have hc : isNameChar c = true := h c (List.mem_cons_self c cs2)
      rw [List.cons_append]
      show expandLoop vars env (ExpState.scanName vn) acc (c :: (cs2 ++ rest)) = _
      rw [expandLoop, if_pos hc,
        ih (vn ++ [c]) acc rest (fun x hx => h x (List.mem_cons_of_mem c hx)),
        List.append_assoc]
      rfl

/-- Default scanning runs through a block of plain characters, accumulating
them; a closing brace would commit and a double quote would add an escape, so
both are excluded. -/
theorem expandLoop_scanDefault_chunk (vars : List (String × String))
    (env : String → Option String) :
    ∀ (cs vn dv acc rest : List Char),
    (∀ c ∈ cs, c ≠ '}' ∧ c ≠ dquote) →
    expandLoop vars env (ExpState.scanDefault vn dv) acc (cs ++ rest) =
      expandLoop vars env (ExpState.scanDefault vn (dv ++ cs)) acc rest := by
  intro cs
  induction cs with
  | nil => intro vn dv acc rest _; simp
  | cons c cs2 ih =>
      intro vn dv acc rest h
      have hc := h c (List.mem_cons_self c cs2)
      rw [List.cons_append]
      show expandLoop vars env (ExpState.scanDefault vn dv) acc (c :: (cs2 ++ rest)) = _
      rw [expandLoop, if_neg (by simpa using hc.1), if_neg (by simpa using hc.2),
        ih vn (dv ++ [c]) acc rest (fun x hx => h x (List.mem_cons_of_mem c hx)),
        List.append_assoc]
      rfl

/-- C3 (amended): expanding a token built from a legal name and a default
resolves in the source's order — the variable map first, then the process
environment, and only then the default, where a default beginning with a dollar
sign is first replaced by the environment value of the rest of the default when
that environment variable is set.  An environment binding of the name therefore
wins over a supplied default. -/
theorem expandVariables_token_order :
    ∀ (vars : List (String × String)) (env : String → Option String)
      (name dflt : String),
    (∀ c ∈ name.data, isNameChar c = true) →
    (∀ c ∈ dflt.data, c ≠ '}' ∧ c ≠ dquote) →
    (expandVariables ("$\x7b" ++ name ++ "," ++ dflt ++ "\x7d") vars env =
      Except.ok
        (match (vars.find? (fun p => decide (p.1 = name))).map (fun p => p.2) with
         | some v => v
         | none =>
             match env name with
             | some v => v
             | none => (resolveDefault (some dflt.data) env).getD ""))
    ∧ (∀ evname : String, dflt = "$" ++ evname →
        resolveDefault (some dflt.data) env = some ((env evname).getD dflt)) := by
  intro vars env name dflt hname hdflt
  refine ⟨?_, ?_⟩
  have hdata : ("$\x7b" ++ name ++ "," ++ dflt ++ "\x7d").data =
      '$' :: '{' :: (name.data ++ (',' :: (dflt.data ++ ['}']))) := by
    simp [String.data_append, List.append_assoc]
  have hcomma : isNameChar ',' = false := by decide
  unfold expandVariables
  rw [hdata]
  rw [show expandLoop vars env ExpState.copy []
        ('$' :: '{' :: (name.data ++ (',' :: (dflt.data ++ ['}'])))) =
      expandLoop vars env (ExpState.scanName []) []
        (name.data ++ (',' :: (dflt.data ++ ['}']))) from by
    rw [expandLoop, if_neg (by decide), if_pos (by decide), expandLoop,
      if_pos (by decide)]]
  rw [expandLoop_scanName_chunk vars env name.data [] []
      (',' :: (dflt.data ++ ['}'])) hname]
  rw [show expandLoop vars env (ExpState.scanName ([] ++ name.data)) []
        (',' :: (dflt.data ++ ['}'])) =
      expandLoop vars env (ExpState.scanDefault name.data []) []
        (dflt.data ++ ['}']) from by
    rw [expandLoop, if_neg (by simp [hcomma]), if_pos (by decide)]
    rfl]
  rw [show (dflt.data ++ ['}'] : List Char) = dflt.data ++ ('}' :: []) from rfl]
  rw [expandLoop_scanDefault_chunk vars env dflt.data name.data [] [] ['}'] hdflt]
  rw [expandLoop, if_pos (by decide), expandLoop]
  have hmkname : String.mk name.data = name := rfl
  rw [List.nil_append, hmkname]
  unfold getVar
  cases hfind : (vars.find? (fun p => decide (p.1 = name))).map (fun p => p.2) with
  | some v => rfl
  | none =>
      cases henv : env name with
      | some v => rfl
      | none =>
          simp only [List.nil_append]
          cases hr : resolveDefault (some dflt.data) env with
          | some d => rfl
          | none => rfl
  · intro evname hev
    subst hev
    have hdata2 : ("$" ++ evname).data = '$' :: evname.data := rfl
    have hred : resolveDefault (some ('$' :: evname.data)) env =
        match env evname with
        | some e => some e
        | none => some ("$" ++ evname) := rfl
    rw [hdata2, hred]
    cases henv2 : env evname with
    | some e => rfl
    | none => rfl

/-- Witness for `expandVariables_token_order`: a name bound in the variable map
expands to the map value. -/
theorem expandVariables_token_order_w :
    expandVariables "$\x7bPORT,8080\x7d" [("PORT", "7777")] envNone =
      Except.ok "7777" := by
  have h := (expandVariables_token_order [("PORT", "7777")] envNone "PORT" "8080"
    (by decide) (by decide)).1
  simpa using h

/-- C3 counterexample: with `PORT` absent from the variable map, bound to `9090`
in the process environment, and carrying the default `8080`, the expansion
yields the environment value, not the default the claim promises. -/
theorem expandVariables_env_beats_default :
    expandVariables "$\x7bPORT,8080\x7d" [] envPortOnly = Except.ok "9090" ∧
    ("9090" : String) ≠ "8080" := by
  exact ⟨rfl, by decide⟩

/-- One copy step of the expansion loop. -/
theorem expandLoop_copy_cons (vars : List (String × String))
    (env : String → Option String) (acc : List Char) (ch : Char) (rest : List Char) :
    expandLoop vars env ExpState.copy acc (ch :: rest) =
      if ch = '\\' then expandLoop vars env ExpState.backslash acc rest
      else if ch = '$' then expandLoop vars env ExpState.dollar acc rest
      else expandLoop vars env ExpState.copy (acc ++ [ch]) rest := rfl

/-- One backslash step of the expansion loop. -/
theorem expandLoop_backslash_cons (vars : List (String × String))
    (env : String → Option String) (acc : List Char) (ch : Char) (rest : List Char) :
    expandLoop vars env ExpState.backslash acc (ch :: rest) =
      if ch ≠ '$' then expandLoop vars env ExpState.copy (acc ++ ['\\', ch]) rest
      else expandLoop vars env ExpState.copy (acc ++ [ch]) rest := rfl

/-- One dollar step of the expansion loop. -/
theorem expandLoop_dollar_cons (vars : List (String × String))
    (env : String → Option String) (acc : List Char) (ch : Char) (rest : List Char) :
    expandLoop vars env ExpState.dollar acc (ch :: rest) =
      if ch = '{' then expandLoop vars env (ExpState.scanName []) acc rest
      else expandLoop vars env ExpState.copy (acc ++ ['$', ch]) rest := rfl

/-- Exhausted input in the copy state yields the accumulator. -/
theorem expandLoop_copy_nil (vars : List (String × String))
    (env : String → Option String) (acc : List Char) :
    expandLoop vars env ExpState.copy acc [] = Except.ok acc := rfl

/-- Copy loop of `expandVariables` on a pass-through input: every character is
emitted unchanged. -/
theorem ptExpandAux (vars : List (String × String)) (env : String → Option String) :
    ∀ (cs : List Char), passesThrough cs = true → ∀ (acc : List Char),
      expandLoop vars env ExpState.copy acc cs = Except.ok (acc ++ cs)
  | [], _, acc => by simp [expandLoop]
  | [c], h, acc => by
      by_cases h1 : c = '\\'
      · rw [h1] at h
        simp [passesThrough] at h
      · by_cases h2 : c = '$'
        · rw [h2] at h
          simp [passesThrough] at h
        · rw [expandLoop_copy_cons, if_neg h1, if_neg h2, expandLoop_copy_nil]
  | c :: c2 :: rest2, h, acc => by
      by_cases h1 : c = '\\'
      · subst h1
        by_cases h2 : c2 = '$'
        · rw [h2] at h
          simp [passesThrough] at h
        · have hrest : passesThrough rest2 = true := by
            simpa [passesThrough, h2] using h
          rw [expandLoop_copy_cons, if_pos rfl, expandLoop_backslash_cons,
            if_pos h2, ptExpandAux vars env rest2 hrest (acc ++ ['\\', c2])]
          simp
      · by_cases h2 : c = '$'
        · subst h2
          by_cases h3 : c2 = '{'
          · rw [h3] at h
            simp [passesThrough] at h
          · have hrest : passesThrough rest2 = true := by
              simpa [passesThrough, h3] using h
            rw [expandLoop_copy_cons, if_neg (by decide : ¬('$' = '\\')),
              if_pos rfl, expandLoop_dollar_cons, if_neg h3,
              ptExpandAux vars env rest2 hrest (acc ++ ['$', c2])]
            simp
        · have hrest : passesThrough (c2 :: rest2) = true := by
            simpa [passesThrough, h1, h2] using h
          rw [expandLoop_copy_cons, if_neg h1, if_neg h2,
            ptExpandAux vars env (c2 :: rest2) hrest (acc ++ [c])]
          simp

/-- C9 (amended): variable expansion returns its input unchanged — and is hence
idempotent on it — for every string in which no backslash or dollar sign is
final, no backslash is followed by a dollar sign, and no dollar sign is
followed by an opening brace; bare dollar signs and backslashes in any other
position pass through unchanged.  (A trailing backslash or dollar sign is an
unterminated-macro error, and a backslash-dollar pair is unescaped to a plain
dollar, so those inputs are not returned unchanged.) -/
theorem expandVariables_passthrough :
    ∀ (s : String) (vars : List (String × String)) (env : String → Option String),
    passesThrough s.data = true →
    expandVariables s vars env = Except.ok s ∧
    (expandVariables s vars env).bind (fun t => expandVariables t vars env) =
      Except.ok s := by
  intro s vars env h
  have h1 : expandVariables s vars env = Except.ok s := by
    unfold expandVariables
    rw [ptExpandAux vars env s.data h []]
    rfl
  refine ⟨h1, ?_⟩
  rw [h1]
  simpa only [Except.bind] using h1

/-- Witness for `expandVariables_passthrough`: a string with an inner dollar
sign and an inner backslash is returned unchanged, twice. -/
theorem expandVariables_passthrough_w :
    expandVariables "pay $5 to dir\\sub now" [] envNone =
      Except.ok "pay $5 to dir\\sub now" :=
  (expandVariables_passthrough "pay $5 to dir\\sub now" [] envNone (by decide)).1

/-- C9 counterexample: the two-character input backslash-dollar contains no
variable token, yet expansion rewrites it to the single character dollar — the
backslash escape is consumed — so expansion is not the identity on all
token-free inputs. -/
theorem expandVariables_changes_backslash_dollar :
    expandVariables (String.mk ['\\', '$']) [] envNone = Except.ok "$" ∧
    String.mk ['\\', '$'] ≠ "$" :=
  ⟨rfl, by decide⟩

/-- The task loop leaves the component state alone or fails it. -/
theorem evalTasksLoop_state :
    ∀ (tasks : List TaskState) (st ns : CompState) (ad : Bool),
    (evalTasksLoop tasks st ns ad).1 = st ∨
      (evalTasksLoop tasks st ns ad).1 = CompState.FAILED := by
  intro tasks
  induction tasks with
  | nil => intro st ns ad; exact Or.inl rfl
  | cons t rest ih =>
      intro st ns ad
      simp only [evalTasksLoop]
      split
      · exact Or.inr rfl
      · exact ih st _ _

/-- The task loop can raise `newState` only to RUNNING. -/
theorem evalTasksLoop_ns :
    ∀ (tasks : List TaskState) (st ns : CompState) (ad : Bool),
    (evalTasksLoop tasks st ns ad).2.1 = ns ∨
      (evalTasksLoop tasks st ns ad).2.1 = CompState.RUNNING := by
  intro tasks
  induction tasks with
  | nil => intro st ns ad; exact Or.inl rfl
  | cons t rest ih =>
      intro st ns ad
      simp only [evalTasksLoop]
      by_cases hcond : TaskState.BLOCKED.toNat ≤ t.toNat ∧ st = CompState.CREATING
      · simp only [if_pos hcond]
        split
        · exact Or.inr rfl
        · rcases ih st CompState.RUNNING (if t = TaskState.DONE then ad else false) with
            h | h
          · exact Or.inr h
          · exact Or.inr h
      · simp only [if_neg hcond]
        split
        · exact Or.inl rfl
        · exact ih st ns _

/-- The task loop reports all-done only when it started all-done and every task
of the component is DONE. -/
theorem evalTasksLoop_allDone :
    ∀ (tasks : List TaskState) (st ns : CompState) (ad : Bool),
    (evalTasksLoop tasks st ns ad).2.2 = true →
      ad = true ∧ ∀ t ∈ tasks, t = TaskState.DONE := by
  intro tasks
  induction tasks with
  | nil => intro st ns ad h; exact ⟨h, by simp⟩
  | cons t rest ih =>
      intro st ns ad h
      simp only [evalTasksLoop] at h
      by_cases ht : t = TaskState.DONE
      · rw [if_pos ht] at h
        split at h
        · rename_i hcond
          rw [ht] at hcond
          exact absurd hcond.1 (by decide)
        · obtain ⟨had, hrest⟩ := ih st _ ad h
          refine ⟨had, ?_⟩
          intro x hx
          rcases List.mem_cons.mp hx with rfl | hx2
          · exact ht
          · exact hrest x hx2
      · rw [if_neg ht] at h
        split at h
        · simp at h
        · obtain ⟨had, _⟩ := ih st _ false h
          exact absurd had (by decide)

/-- The child loop completes without blocking only when every child is DONE. -/
theorem childScanLoop_some_false :
    ∀ (children : List CompState) (b : Bool),
    childScanLoop children b = some false →
      b = false ∧ ∀ c ∈ children, c = CompState.DONE := by
  intro children
  induction children with
  | nil =>
      intro b h
      simp only [childScanLoop, Option.some.injEq] at h
      exact ⟨h, by simp⟩
  | cons c rest ih =>
      intro b h
      simp only [childScanLoop] at h
      split at h
      · split at h
        · cases h
        · obtain ⟨hb, _⟩ := ih true h
          exact absurd hb (by decide)
      · rename_i hc
        have hcd : c = CompState.DONE := not_not.mp hc
        obtain ⟨hb, hrest⟩ := ih b h
        refine ⟨hb, ?_⟩
        intro x hx
        rcases List.mem_cons.mp hx with rfl | hx2
        · exact hcd
        · exact hrest x hx2

/-- The final promotion step returns either `newState` or the incoming state. -/
theorem evalFinal_cases (tasks : List TaskState) (st ns : CompState) :
    evalFinal tasks st ns = ns ∨ evalFinal tasks st ns = st := by
  unfold evalFinal
  split
  · exact Or.inl rfl
  · exact Or.inr rfl

/-- C1 (amended): `Component::evaluate` moves a component to DONE only when all
of the component's tasks are DONE, all of its children are DONE and, in CREATE
mode, every component it depends on is DONE (a component already DONE stays
DONE).  The Service deploy success handler and the Deployment pod-created event
handler, however, set their component DONE directly — the former whenever the
component is RUNNING, the latter when the started-pod count reaches the replica
count — without consulting the children. -/
theorem compEvaluate_done_only_when_ready :
    ∀ (mode : Mode) (dependsOn children : List CompState) (tasks : List TaskState)
      (st0 : CompState),
    compEvaluate mode dependsOn children tasks st0 = CompState.DONE →
    st0 = CompState.DONE ∨
      ((∀ t ∈ tasks, t = TaskState.DONE) ∧ (∀ c ∈ children, c = CompState.DONE) ∧
        isBlockedOnDependency mode dependsOn = false) := by
  intro mode dependsOn children tasks st0 h
  unfold compEvaluate at h
  rcases hr : evalTasksLoop tasks st0 CompState.CREATING true with ⟨st, ns, ad⟩
  rw [hr] at h
  dsimp only at h
  have hstate : st = st0 ∨ st = CompState.FAILED := by
    have := evalTasksLoop_state tasks st0 CompState.CREATING true
    rw [hr] at this
    exact this
  have hns : ns = CompState.CREATING ∨ ns = CompState.RUNNING := by
    have := evalTasksLoop_ns tasks st0 CompState.CREATING true
    rw [hr] at this
    exact this
  have hfinal : evalFinal tasks st ns = CompState.DONE → st0 = CompState.DONE := by
    intro hf
    rcases evalFinal_cases tasks st ns with he | he
    · rw [hf] at he
      rcases hns with rfl | rfl <;> cases he
    · rw [hf] at he
      rcases hstate with rfl | rfl
      · exact he.symm
      · cases he
  by_cases had : ad = true
  · rw [if_pos had] at h
    cases hcs : childScanLoop children false with
    | none =>
        rw [hcs] at h
        cases h
    | some bc =>
        rw [hcs] at h
        dsimp only at h
        by_cases hb : isBlockedOnDependency mode dependsOn = true
        · rw [if_pos hb] at h
          rcases hstate with rfl | rfl
          · exact Or.inl h
          · cases h
        · rw [if_neg hb] at h
          by_cases hbc : bc = false
          · have htasks : ∀ t ∈ tasks, t = TaskState.DONE := by
              have h22 : (evalTasksLoop tasks st0 CompState.CREATING true).2.2 = true := by
                rw [hr]
                exact had
              exact (evalTasksLoop_allDone tasks st0 CompState.CREATING true h22).2
            have hchildren : ∀ c ∈ children, c = CompState.DONE := by
              rw [hbc] at hcs
              exact (childScanLoop_some_false children false hcs).2
            exact Or.inr ⟨htasks, hchildren, Bool.not_eq_true _ ▸ eq_false_of_ne_true hb⟩
          · rw [if_neg (by simpa using hbc)] at h
            exact Or.inl (hfinal h)
  · rw [if_neg had] at h
    exact Or.inl (hfinal h)

/-- Witness for `compEvaluate_done_only_when_ready` at a RUNNING component with
one DONE task and one DONE child. -/
theorem compEvaluate_done_only_when_ready_w :
    compEvaluate Mode.CREATE [] [CompState.DONE] [TaskState.DONE]
        CompState.RUNNING = CompState.DONE
    ∧ (CompState.RUNNING = CompState.DONE ∨
        ((∀ t ∈ [TaskState.DONE], t = TaskState.DONE) ∧
         (∀ c ∈ [CompState.DONE], c = CompState.DONE) ∧
         isBlockedOnDependency Mode.CREATE [] = false)) :=
  ⟨by decide,
   compEvaluate_done_only_when_ready Mode.CREATE [] [CompState.DONE]
     [TaskState.DONE] CompState.RUNNING (by decide)⟩

/-- C1 counterexample: the Service deploy success handler moves a RUNNING
component to DONE although its only child is still CREATING, and the Deployment
pod-created event handler does the same when the started-pod count reaches the
replica count — both without consulting the child states. -/
theorem service_deployment_set_done_with_pending_child :
    (serviceDoDeploySuccess [CompState.CREATING] CompState.RUNNING).2 =
      CompState.DONE
    ∧ (deploymentOnPodEvent "web" "default" [CompState.CREATING] 1 0
        TaskState.WAITING CompState.RUNNING
        ⟨"Pod", "web-1", "default", "web-1", "Created"⟩).2.2 = CompState.DONE
    ∧ CompState.CREATING ≠ CompState.DONE := by
  refine ⟨rfl, rfl, by decide⟩

/-- Membership after one saturation step. -/
theorem mem_closureStep_iff (g : List (Nat × Nat)) (s : Finset Nat) (y : Nat) :
    y ∈ closureStep g s ↔ y ∈ s ∨ ∃ e ∈ g, e.1 ∈ s ∧ e.2 = y := by
  unfold closureStep
  simp only [Finset.mem_union, List.mem_toFinset, List.mem_map, List.mem_filter,
    decide_eq_true_eq]
  constructor
  · rintro (hy | ⟨e, ⟨heg, hes⟩, hey⟩)
    · exact Or.inl hy
    · exact Or.inr ⟨e, heg, hes, hey⟩
  · rintro (hy | ⟨e, heg, hes, hey⟩)
    · exact Or.inl hy
    · exact Or.inr ⟨e, ⟨heg, hes⟩, hey⟩

/-- Base of the saturation. -/
theorem reachIter_zero (g : List (Nat × Nat)) (x : Nat) :
    reachIter g x 0 = ({x} : Finset Nat) := rfl

/-- Unfolding of one saturation round. -/
theorem reachIter_succ (g : List (Nat × Nat)) (x : Nat) (n : Nat) :
    reachIter g x (n + 1) = closureStep g (reachIter g x n) :=
  Function.iterate_succ_apply' (closureStep g) n ({x} : Finset Nat)

/-- Saturation prefix of the full `reachSet`. -/
theorem reachSet_eq (g : List (Nat × Nat)) (x : Nat) :
    reachSet g x = reachIter g x (g.length + 1) := rfl

/-- Each saturation round grows the set. -/
theorem reachIter_subset_succ (g : List (Nat × Nat)) (x : Nat) (n : Nat) :
    reachIter g x n ⊆ reachIter g x (n + 1) := by
  rw [reachIter_succ]
  exact Finset.subset_union_left

/-- Monotonicity of the saturation rounds. -/
theorem reachIter_mono (g : List (Nat × Nat)) (x : Nat) :
    ∀ {m n : Nat}, m ≤ n → reachIter g x m ⊆ reachIter g x n := by
  intro m n h
  induction h with
  | refl => exact subset_rfl
  | step _ ih => exact ih.trans (reachIter_subset_succ g x _)

/-- Soundness: everything in a saturation round is reachable. -/
theorem reachIter_sound (g : List (Nat × Nat)) (x : Nat) :
    ∀ (n y : Nat), y ∈ reachIter g x n → Relation.ReflTransGen (edgeRel g) x y := by
  intro n
  induction n with
  | zero =>
      intro y hy
      rw [reachIter_zero, Finset.mem_singleton] at hy
      subst hy
      exact Relation.ReflTransGen.refl
  | succ n ih =>
      intro y hy
      rw [reachIter_succ] at hy
      rcases (mem_closureStep_iff g _ y).mp hy with hy2 | ⟨e, heg, hes, hey⟩
      · exact ih y hy2
      · refine (ih e.1 hes).tail ?_
        show (e.1, y) ∈ g
        rw [← hey, Prod.mk.eta]
        exact heg

/-- Every saturation round stays inside the start node and the edge targets. -/
theorem reachIter_bound (g : List (Nat × Nat)) (x : Nat) :
    ∀ n, reachIter g x n ⊆ ({x} : Finset Nat) ∪ (g.map (fun e => e.2)).toFinset := by
  intro n
  induction n with
  | zero =>
      rw [reachIter_zero]
      exact Finset.subset_union_left
  | succ n ih =>
      rw [reachIter_succ]
      intro y hy
      rcases (mem_closureStep_iff g _ y).mp hy with hy2 | ⟨e, heg, _, hey⟩
      · exact ih hy2
      · apply Finset.mem_union_right
        rw [List.mem_toFinset]
        exact List.mem_map.mpr ⟨e, heg, hey⟩

/-- A fixed round stays fixed in all later rounds. -/
theorem reachIter_stable (g : List (Nat × Nat)) (x : Nat) (n : Nat)
    (h : closureStep g (reachIter g x n) = reachIter g x n) :
    ∀ m, n ≤ m → reachIter g x m = reachIter g x n := by
  intro m hm
  induction hm with
  | refl => rfl
  | step _ ih =>
      rw [reachIter_succ, ih, h]

/-- While no round is fixed, the cardinality grows every round. -/
theorem reachIter_growth (g : List (Nat × Nat)) (x : Nat) :
    ∀ (k : Nat), (∀ m, m < k → reachIter g x m ≠ reachIter g x (m + 1)) →
      k + 1 ≤ (reachIter g x k).card := by
  intro k
  induction k with
  | zero =>
      intro _
      rw [reachIter_zero]
      simp
  | succ k ih =>
      intro h
      have h1 : k + 1 ≤ (reachIter g x k).card :=
        ih (fun m hm => h m (Nat.lt_succ_of_lt hm))
      have hne : reachIter g x k ≠ reachIter g x (k + 1) := h k (Nat.lt_succ_self k)
      have hss : reachIter g x k ⊂ reachIter g x (k + 1) :=
        Finset.ssubset_iff_subset_ne.mpr ⟨reachIter_subset_succ g x k, hne⟩
      have h2 := Finset.card_lt_card hss
      omega

/-- After `g.length + 1` rounds the saturation is a fixpoint of `closureStep`. -/
theorem closureStep_reachSet (g : List (Nat × Nat)) (x : Nat) :
    closureStep g (reachSet g x) = reachSet g x := by
  have hbound : ∀ n, (reachIter g x n).card ≤ g.length + 1 := by
    intro n
    have hsub := Finset.card_le_card (reachIter_bound g x n)
    have hcup := Finset.card_union_le ({x} : Finset Nat)
      ((g.map (fun e => e.2)).toFinset)
    have hts : ((g.map (fun e => e.2)).toFinset).card ≤ g.length := by
      have := List.toFinset_card_le (g.map (fun e => e.2))
      simpa using this
    have hone : ({x} : Finset Nat).card = 1 := Finset.card_singleton x
    omega
  rw [reachSet_eq]
  by_cases hex : ∃ m, m < g.length + 1 ∧
      closureStep g (reachIter g x m) = reachIter g x m
  · obtain ⟨m, hm, hfix⟩ := hex
    have hstab := reachIter_stable g x m hfix (g.length + 1) (Nat.le_of_lt hm)
    rw [hstab, hfix]
  · push_neg at hex
    have hne : ∀ m, m < g.length + 1 → reachIter g x m ≠ reachIter g x (m + 1) := by
      intro m hm heq
      exact hex m hm (by rw [← reachIter_succ]; exact heq.symm)
    have hgrow := reachIter_growth g x (g.length + 1) hne
    have hb := hbound (g.length + 1)
    omega

/-- The computed `reachSet` is exactly reflexive-transitive reachability. -/
theorem mem_reachSet_iff (g : List (Nat × Nat)) (x y : Nat) :
    y ∈ reachSet g x ↔ Relation.ReflTransGen (edgeRel g) x y := by
  constructor
  · intro h
    exact reachIter_sound g x (g.length + 1) y h
  · intro h
    induction h with
    | refl =>
        rw [reachSet_eq]
        exact reachIter_mono g x (Nat.zero_le _)
          (by rw [reachIter_zero]; exact Finset.mem_singleton_self x)
    | tail _ hedge ih =>
        rw [← closureStep_reachSet g x]
        apply (mem_closureStep_iff g _ _).mpr
        rename_i b c _
        exact Or.inr ⟨(b, c), hedge, ih, rfl⟩

/-- The set filled by `addDependenciesRecursively` is exactly transitive
reachability through at least one `dependsOn` edge. -/
theorem mem_addDependenciesRecursively_iff (g : List (Nat × Nat)) (x y : Nat) :
    y ∈ addDependenciesRecursively g x ↔ Relation.TransGen (edgeRel g) x y := by
  unfold addDependenciesRecursively
  rw [Finset.mem_biUnion]
  constructor
  · rintro ⟨c, hc, hy⟩
    rw [List.mem_toFinset, List.mem_map] at hc
    obtain ⟨e, hef, hec⟩ := hc
    rw [List.mem_filter, decide_eq_true_eq] at hef
    have hedge : edgeRel g x c := by
      show (x, c) ∈ g
      rw [← hef.2, ← hec, Prod.mk.eta]
      exact hef.1
    exact Relation.TransGen.head'_iff.mpr
      ⟨c, hedge, (mem_reachSet_iff g c y).mp hy⟩
  · intro h
    obtain ⟨c, hedge, hrtg⟩ := Relation.TransGen.head'_iff.mp h
    refine ⟨c, ?_, (mem_reachSet_iff g c y).mpr hrtg⟩
    rw [List.mem_toFinset, List.mem_map]
    exact ⟨(x, c), by rw [List.mem_filter, decide_eq_true_eq]; exact ⟨hedge, rfl⟩, rfl⟩

/-- Transitive paths in a graph extended by one edge either avoid the new edge
or split into a prefix reaching its source and a suffix leaving its target. -/
theorem transGen_append (g : List (Nat × Nat)) (s d : Nat) :
    ∀ a b, Relation.TransGen (edgeRel (g ++ [(s, d)])) a b →
      Relation.TransGen (edgeRel g) a b ∨
        (Relation.ReflTransGen (edgeRel g) a s ∧
         Relation.ReflTransGen (edgeRel g) d b) := by
  intro a b h
  induction h with
  | single hedge =>
      rcases List.mem_append.mp hedge with hg | hs
      · exact Or.inl (Relation.TransGen.single hg)
      · rw [List.mem_singleton, Prod.mk.injEq] at hs
        obtain ⟨rfl, rfl⟩ := hs
        exact Or.inr ⟨Relation.ReflTransGen.refl, Relation.ReflTransGen.refl⟩
  | tail _ hedge ih =>
      rcases List.mem_append.mp hedge with hg | hs
      · rcases ih with htg | ⟨h1, h2⟩
        · exact Or.inl (htg.tail hg)
        · exact Or.inr ⟨h1, h2.tail hg⟩
      · rw [List.mem_singleton, Prod.mk.injEq] at hs
        obtain ⟨rfl, rfl⟩ := hs
        rcases ih with htg | ⟨h1, _⟩
        · exact Or.inr ⟨htg.to_reflTransGen, Relation.ReflTransGen.refl⟩
        · exact Or.inr ⟨h1, Relation.ReflTransGen.refl⟩

/-- Appending an edge whose target does not already reach its source keeps the
graph acyclic. -/
theorem acyclic_append (g : List (Nat × Nat)) (s d : Nat) (hsd : s ≠ d)
    (hnd : ¬ Relation.TransGen (edgeRel g) d s) (hg : Acyclic g) :
    Acyclic (g ++ [(s, d)]) := by
  intro a ha
  rcases transGen_append g s d a a ha with htg | ⟨h1, h2⟩
  · exact hg a htg
  · have hds : Relation.ReflTransGen (edgeRel g) d s := h2.trans h1
    rcases Relation.reflTransGen_iff_eq_or_transGen.mp hds with heq | htg2
    · exact hsd heq
    · exact hnd htg2

/-- The empty edge list is acyclic. -/
theorem acyclic_nil : Acyclic [] := by
  intro a h
  cases h with
  | single hedge => exact (List.not_mem_nil _) hedge
  | tail _ hedge => exact (List.not_mem_nil _) hedge

/-- A successful `addDependency` preserves acyclicity. -/
theorem addDependency_ok_acyclic (g : List (Nat × Nat)) (src dst : Nat)
    (g2 : List (Nat × Nat)) (hg : Acyclic g)
    (h : addDependency g src dst = Except.ok g2) : Acyclic g2 := by
  unfold addDependency at h
  by_cases h1 : src = dst
  · rw [if_pos h1] at h
    exact Except.noConfusion h
  · rw [if_neg h1] at h
    by_cases h2 : src ∈ addDependenciesRecursively g dst
    · rw [if_pos h2] at h
      exact Except.noConfusion h
    · rw [if_neg h2] at h
      by_cases h3 : (src, dst) ∈ g
      · rw [if_pos h3] at h
        injection h with h4
        subst h4
        exact hg
      · rw [if_neg h3] at h
        injection h with h4
        subst h4
        exact acyclic_append g src dst h1
          (fun htg => h2 ((mem_addDependenciesRecursively_iff g dst src).mpr htg)) hg

/-- A run of insertions that all succeed preserves acyclicity of the start
graph. -/
theorem addAll_ok_acyclic_aux :
    ∀ (reqs : List (Nat × Nat)) (g0 : List (Nat × Nat)), Acyclic g0 →
    ∀ gf, List.foldlM (fun g r => addDependency g r.1 r.2) g0 reqs =
      Except.ok gf → Acyclic gf := by
  intro reqs
  induction reqs with
  | nil =>
      intro g0 hg gf h
      simp only [List.foldlM_nil] at h
      injection h with h4
      subst h4
      exact hg
  | cons r rest ih =>
      intro g0 hg gf h
      rw [List.foldlM_cons] at h
      cases hstep : addDependency g0 r.1 r.2 with
      | error e =>
          rw [hstep] at h
          simp only [Bind.bind, Except.bind] at h
          exact Except.noConfusion h
      | ok g1 =>
          rw [hstep] at h
          simp only [Bind.bind, Except.bind] at h
          exact ih g1 (addDependency_ok_acyclic g0 r.1 r.2 g1 hg hstep) gf h

/-- C6: `addDependency` refuses a self edge with an error; raises the
circular-dependency error exactly when the destination already transitively
depends on the source through any number of edges; keeps the edge list
untouched when the edge is already present; otherwise appends the edge; and
every sequence of insertions that all succeed leaves the `dependsOn` edges
acyclic (a DAG). -/
theorem addDependency_spec :
    ∀ (g : List (Nat × Nat)) (src dst : Nat),
    (addDependency g src src = Except.error "Cannot depend on myself!")
    ∧ (src ≠ dst →
        (addDependency g src dst = Except.error "Circular dependency" ↔
          Relation.TransGen (edgeRel g) dst src))
    ∧ (src ≠ dst → ¬ Relation.TransGen (edgeRel g) dst src → (src, dst) ∈ g →
        addDependency g src dst = Except.ok g)
    ∧ (src ≠ dst → ¬ Relation.TransGen (edgeRel g) dst src → (src, dst) ∉ g →
        addDependency g src dst = Except.ok (g ++ [(src, dst)]))
    ∧ (∀ (reqs gf : List (Nat × Nat)), addAll reqs = Except.ok gf → Acyclic gf) := by
  intro g src dst
  refine ⟨?_, ?_, ?_, ?_, ?_⟩
  · simp [addDependency]
  · intro hsd
    unfold addDependency
    rw [if_neg hsd]
    by_cases hmem : src ∈ addDependenciesRecursively g dst
    · rw [if_pos hmem]
      simp [(mem_addDependenciesRecursively_iff g dst src).mp hmem]
    · rw [if_neg hmem]
      have hnt : ¬ Relation.TransGen (edgeRel g) dst src :=
        fun ht => hmem ((mem_addDependenciesRecursively_iff g dst src).mpr ht)
      split <;> simp [hnt]
  · intro hsd hnt hmem
    unfold addDependency
    rw [if_neg hsd,
      if_neg (fun hm => hnt ((mem_addDependenciesRecursively_iff g dst src).mp hm)),
      if_pos hmem]
  · intro hsd hnt hmem
    unfold addDependency
    rw [if_neg hsd,
      if_neg (fun hm => hnt ((mem_addDependenciesRecursively_iff g dst src).mp hm)),
      if_neg hmem]
  · intro reqs gf h
    exact addAll_ok_acyclic_aux reqs [] acyclic_nil gf h

/-- Witness for `addDependency_spec`: a fresh edge between unrelated components
is appended. -/
theorem addDependency_spec_w :
    addDependency [(1, 2)] 2 3 = Except.ok [(1, 2), (2, 3)] := by
  refine (addDependency_spec [(1, 2)] 2 3).2.2.2.1 (by decide) (fun ht => ?_)
    (by decide)
  exact absurd ((mem_addDependenciesRecursively_iff [(1, 2)] 3 2).mpr ht) (by decide)

end k8deployer
